import Mathlib

/-!
Verification of the KdV finite-difference integrator from
`src/notebooks/KdV.ipynb` (repository `gfd-simulations`).

The notebook evolves a state vector `u` (a numpy array of `N` real samples
of a periodic domain of length `L`) by forward-Euler steps of the linear
KdV equation, using the finite-difference stencil

  third_d(u, dx) = (np.roll(u,-2) - 2*np.roll(u,-1)
                    + 2*np.roll(u,1) - np.roll(u,2)) / (2*dx**3)

and the loop `for n in range(Nt): u0 = u0 - dt * third_d(u0, dx)` with
`Nt = int(T/dt)`.  Arrays are embedded as `List` over an arithmetic type
(`ℚ` for the exact-arithmetic claims), `np.roll` as `List.rotate`, and the
elementwise numpy operations as `zipWith` / `map`.
-/

namespace KdV

/-- Embedding of `np.roll u k`: for `k ≥ 0` elements move `k` places to the
right (cyclically), so `np.roll(u,k)[i] = u[(i-k) mod len u]`; a roll by `k`
is a left rotation by `(-k) mod len u`. -/
def npRoll {α : Type*} (u : List α) (k : ℤ) : List α :=
  u.rotate (((-k) % (u.length : ℤ)).toNat)

/-- Elementwise numpy addition of two arrays. -/
def vadd {α : Type*} [Add α] (a b : List α) : List α :=
  List.zipWith (· + ·) a b

/-- Elementwise numpy subtraction of two arrays. -/
def vsub {α : Type*} [Sub α] (a b : List α) : List α :=
  List.zipWith (· - ·) a b

/-- numpy scalar-times-array broadcast `c * a`. -/
def smul {α : Type*} [Mul α] (c : α) (a : List α) : List α :=
  a.map (fun x => c * x)

/-- numpy array-divided-by-scalar broadcast `a / c`. -/
def vdiv {α : Type*} [Div α] (a : List α) (c : α) : List α :=
  a.map (fun x => x / c)

/-- The notebook's `third_d(u, dx)`:
`(np.roll(u,-2) - 2*np.roll(u,-1) + 2*np.roll(u,1) - np.roll(u,2)) / (2*dx**3)`. -/
def third_d {α : Type*} [Add α] [Sub α] [Monoid α] [Div α] [OfNat α 2]
    (u : List α) (dx : α) : List α :=
  vdiv (vsub (vadd (vsub (npRoll u (-2)) (smul 2 (npRoll u (-1))))
    (smul 2 (npRoll u 1))) (npRoll u 2)) (2 * dx ^ 3)

/-- One iteration of the notebook's time loop: `u0 - dt * third_d(u0, dx)`. -/
def step {α : Type*} [Add α] [Sub α] [Monoid α] [Div α] [OfNat α 2]
    (u : List α) (dt dx : α) : List α :=
  vsub u (smul dt (third_d u dx))

/-- The notebook's full time loop `for n in range(Nt): u0 = u0 - dt * third_d(u0, dx)`. -/
def integrate {α : Type*} [Add α] [Sub α] [Monoid α] [Div α] [OfNat α 2]
    (u : List α) (dt dx : α) (nt : ℕ) : List α :=
  (List.range nt).foldl (fun v _ => step v dt dx) u

/-- Python's `int(q)` on a rational: truncation toward zero, as in `Nt = int(T/dt)`. -/
def pyInt (q : ℚ) : ℤ :=
  if 0 ≤ q then ⌊q⌋ else ⌈q⌉

/-- The notebook's `Nt = int(T/dt)`. -/
def numSteps (T dt : ℚ) : ℤ :=
  pyInt (T / dt)

/-- The notebook's `dx = L/Nx`. -/
def dxOf (L : ℚ) (N : ℕ) : ℚ := L / N

/-- Embedding of `np.linspace(a, b, n, endpoint=False)`: the `n` points
`a + i*(b-a)/n`. -/
def linspace (a b : ℚ) (n : ℕ) : List ℚ :=
  (List.range n).map (fun i : ℕ => a + (i : ℚ) * ((b - a) / n))

/-- The notebook's grid `x = np.linspace(0, L, Nx, endpoint=False)`. -/
def gridX (L : ℚ) (N : ℕ) : List ℚ :=
  linspace 0 L N

/-- The spec's periodic indexing: `u_j` with the index taken modulo `N`
(`-1` maps to `N-1`, `N` maps to `0`). -/
def wrap (u : List ℚ) (j : ℤ) : ℚ :=
  u.getD ((j % (u.length : ℤ)).toNat) 0

/-- The stencil exactly as the spec writes it:
`D₃[u]_i = (u_{i-2} - 2 u_{i-1} + 2 u_{i+1} - u_{i+2}) / (2 dx³)` with
indices modulo `N`.  Stated from the spec's words, to be compared with the
source's `third_d`. -/
def specD3 (u : List ℚ) (dx : ℚ) : List ℚ :=
  (List.range u.length).map fun i =>
    (wrap u ((i : ℤ) - 2) - 2 * wrap u ((i : ℤ) - 1)
      + 2 * wrap u ((i : ℤ) + 1) - wrap u ((i : ℤ) + 2)) / (2 * dx ^ 3)

/-- Error taxonomy of spec §7: `InvalidGrid` and `NonFiniteState`. -/
inductive SimError where
  | invalidGrid
  | nonFiniteState
deriving DecidableEq

/-- Grid and time parameters (spec §3): length `L`, point count `N`,
step `dt`, total time `T`. -/
structure SimParams where
  L : ℚ
  N : ℕ
  dt : ℚ
  T : ℚ

/-- Modelled from the spec: the notebook assigns `L`, `Nx`, `dt`, `T` inline
and ships no `make_grid`/validation code, so the construction-time checks of
§4.1 and §7 ("raised at construction when L ≤ 0, N below the minimum stencil
width, or dt ≤ 0 / T < 0", minimum width `N ≥ 5`) are modelled here. -/
def makeParams (L : ℚ) (N : ℕ) (dt T : ℚ) : Except SimError SimParams :=
  if L ≤ 0 ∨ N < 5 ∨ dt ≤ 0 ∨ T < 0 then .error .invalidGrid
  else .ok ⟨L, N, dt, T⟩

/-- A scalar value that is either a finite rational or a non-finite value
(NaN or ±infinity collapsed into one case), used to model the spec's
`NonFiniteState` detection: any arithmetic touching a non-finite value is
non-finite. -/
inductive FVal where
  | fin (q : ℚ)
  | nonfin
deriving DecidableEq

namespace FVal

def add : FVal → FVal → FVal
  | fin a, fin b => fin (a + b)
  | _, _ => nonfin

def sub : FVal → FVal → FVal
  | fin a, fin b => fin (a - b)
  | _, _ => nonfin

def mul : FVal → FVal → FVal
  | fin a, fin b => fin (a * b)
  | _, _ => nonfin

def div : FVal → FVal → FVal
  | fin a, fin b => fin (a / b)
  | _, _ => nonfin

def isFinite : FVal → Bool
  | fin _ => true
  | nonfin => false

instance : Add FVal := ⟨FVal.add⟩

instance : Sub FVal := ⟨FVal.sub⟩

instance : Mul FVal := ⟨FVal.mul⟩

instance : One FVal := ⟨fin 1⟩

instance : OfNat FVal 2 := ⟨fin 2⟩

instance : Monoid FVal where
  mul_assoc a b c := by
    cases a <;> cases b <;> cases c <;> try rfl
    exact congrArg FVal.fin (mul_assoc _ _ _)
  one_mul a := by
    cases a <;> try rfl
    exact congrArg FVal.fin (one_mul _)
  mul_one a := by
    cases a <;> try rfl
    exact congrArg FVal.fin (mul_one _)

instance : Div FVal := ⟨FVal.div⟩

end FVal

/-- `True` of a state vector with no NaN/infinite entries (spec §7's
"a scan of the vector"). -/
def allFinite (u : List FVal) : Bool :=
  u.all FVal.isFinite

/-- Modelled from the spec: the notebook's loop performs no finiteness check,
so §7's prescription ("the state vector contains NaN or infinite values after
a step … detect this (a scan of the vector) and fail fast rather than
silently propagate garbage through the remaining steps") is modelled as a
checked variant of the time loop that scans the state after every step and
aborts with `NonFiniteState`. -/
def integrateChecked (dt dx : FVal) : List FVal → ℕ → Except SimError (List FVal)
  | u, 0 => .ok u
  | u, n + 1 =>
    let v := step u dt dx
    if allFinite v then integrateChecked dt dx v n
    else .error .nonFiniteState

/-! ### Lengths -/

theorem length_npRoll {α : Type*} (u : List α) (k : ℤ) :
    (npRoll u k).length = u.length :=
  List.length_rotate u _

theorem length_vadd {α : Type*} [Add α] (a b : List α) :
    (vadd a b).length = min a.length b.length :=
  List.length_zipWith _ _ _

theorem length_vsub {α : Type*} [Sub α] (a b : List α) :
    (vsub a b).length = min a.length b.length :=
  List.length_zipWith _ _ _

theorem length_smul {α : Type*} [Mul α] (c : α) (a : List α) :
    (smul c a).length = a.length :=
  List.length_map _ _

theorem length_vdiv {α : Type*} [Div α] (a : List α) (c : α) :
    (vdiv a c).length = a.length :=
  List.length_map _ _

theorem length_third_d {α : Type*} [Add α] [Sub α] [Monoid α] [Div α] [OfNat α 2]
    (u : List α) (dx : α) : (third_d u dx).length = u.length := by
  simp [third_d, length_vdiv, length_vsub, length_vadd, length_smul, length_npRoll]

theorem length_step {α : Type*} [Add α] [Sub α] [Monoid α] [Div α] [OfNat α 2]
    (u : List α) (dt dx : α) : (step u dt dx).length = u.length := by
  simp [step, length_vsub, length_smul, length_third_d]

theorem integrate_succ {α : Type*} [Add α] [Sub α] [Monoid α] [Div α] [OfNat α 2]
    (u : List α) (dt dx : α) (n : ℕ) :
    integrate u dt dx (n + 1) = step (integrate u dt dx n) dt dx := by
  simp [integrate, List.range_succ, List.foldl_append]

theorem integrate_eq_iterate {α : Type*} [Add α] [Sub α] [Monoid α] [Div α] [OfNat α 2]
    (u : List α) (dt dx : α) (nt : ℕ) :
    integrate u dt dx nt = (fun v => step v dt dx)^[nt] u := by
  induction nt with
  | zero => rfl
  | succ n ih => rw [integrate_succ, ih, Function.iterate_succ_apply']

theorem length_integrate {α : Type*} [Add α] [Sub α] [Monoid α] [Div α] [OfNat α 2]
    (u : List α) (dt dx : α) (nt : ℕ) : (integrate u dt dx nt).length = u.length := by
  induction nt with
  | zero => rfl
  | succ n ih => rw [integrate_succ, length_step, ih]

/-! ### Pointwise values -/

theorem getD_vadd (a b : List ℚ) (i : ℕ) (hia : i < a.length) (hib : i < b.length) :
    (vadd a b).getD i 0 = a.getD i 0 + b.getD i 0 := by
  have h : i < (vadd a b).length := by rw [length_vadd]; omega
  rw [List.getD_eq_getElem _ _ h, List.getD_eq_getElem _ _ hia, List.getD_eq_getElem _ _ hib]
  exact List.getElem_zipWith

theorem getD_vsub (a b : List ℚ) (i : ℕ) (hia : i < a.length) (hib : i < b.length) :
    (vsub a b).getD i 0 = a.getD i 0 - b.getD i 0 := by
  have h : i < (vsub a b).length := by rw [length_vsub]; omega
  rw [List.getD_eq_getElem _ _ h, List.getD_eq_getElem _ _ hia, List.getD_eq_getElem _ _ hib]
  exact List.getElem_zipWith

theorem getD_smul (c : ℚ) (a : List ℚ) (i : ℕ) (hia : i < a.length) :
    (smul c a).getD i 0 = c * a.getD i 0 := by
  have h : i < (smul c a).length := by rw [length_smul]; omega
  rw [List.getD_eq_getElem _ _ h, List.getD_eq_getElem _ _ hia]
  exact List.getElem_map _

theorem getD_vdiv (a : List ℚ) (c : ℚ) (i : ℕ) (hia : i < a.length) :
    (vdiv a c).getD i 0 = a.getD i 0 / c := by
  have h : i < (vdiv a c).length := by rw [length_vdiv]; omega
  rw [List.getD_eq_getElem _ _ h, List.getD_eq_getElem _ _ hia]
  exact List.getElem_map _

theorem wrap_index_lt (u : List ℚ) (j : ℤ) (hu : 0 < u.length) :
    ((j % (u.length : ℤ)).toNat) < u.length := by
  have hN : (0 : ℤ) < (u.length : ℤ) := by exact_mod_cast hu
  have h1 : 0 ≤ j % (u.length : ℤ) := Int.emod_nonneg j hN.ne'
  have h2 : j % (u.length : ℤ) < (u.length : ℤ) := Int.emod_lt_of_pos j hN
  omega

theorem wrap_congr (u : List ℚ) (j j' : ℤ)
    (h : j % (u.length : ℤ) = j' % (u.length : ℤ)) : wrap u j = wrap u j' := by
  unfold wrap
  rw [h]

theorem wrap_eq_getD (u : List ℚ) (i : ℕ) (hi : i < u.length) :
    wrap u (i : ℤ) = u.getD i 0 := by
  unfold wrap
  congr 1
  have : ((i : ℤ) % (u.length : ℤ)) = (i : ℤ) := Int.emod_eq_of_lt (by omega) (by omega)
  omega

theorem getD_npRoll (u : List ℚ) (k : ℤ) (i : ℕ) (hi : i < u.length) :
    (npRoll u k).getD i 0 = wrap u ((i : ℤ) - k) := by
  have hu : 0 < u.length := by omega
  have hN : (0 : ℤ) < (u.length : ℤ) := by exact_mod_cast hu
  have hi' : i < (npRoll u k).length := by rw [length_npRoll]; exact hi
  rw [List.getD_eq_getElem _ _ hi']
  unfold npRoll
  rw [List.getElem_rotate]
  unfold wrap
  have hlt := wrap_index_lt u ((i : ℤ) - k) hu
  rw [List.getD_eq_getElem _ _ hlt]
  congr 1
  have hm0 : 0 ≤ (-k) % (u.length : ℤ) := Int.emod_nonneg _ hN.ne'
  have hcast : ((((-k) % (u.length : ℤ)).toNat : ℤ)) = (-k) % (u.length : ℤ) :=
    Int.toNat_of_nonneg hm0
  have : ((((i + ((-k) % (u.length : ℤ)).toNat) % u.length : ℕ)) : ℤ)
      = ((i : ℤ) - k) % (u.length : ℤ) := by
    push_cast [hcast]
    rw [Int.add_emod, Int.emod_emod_of_dvd _ dvd_rfl, ← Int.add_emod]
    ring_nf
  omega

theorem wrap_npRoll (u : List ℚ) (k : ℤ) (j : ℤ) (hu : 0 < u.length) :
    wrap (npRoll u k) j = wrap u (j - k) := by
  have hlen : (npRoll u k).length = u.length := length_npRoll u k
  have hN : (0 : ℤ) < (u.length : ℤ) := by exact_mod_cast hu
  have hm := wrap_index_lt u j (by omega)
  unfold wrap
  rw [hlen]
  set m : ℕ := (j % (u.length : ℤ)).toNat with hm_def
  have hmlt : m < u.length := by
    have h1 : 0 ≤ j % (u.length : ℤ) := Int.emod_nonneg j hN.ne'
    have h2 : j % (u.length : ℤ) < (u.length : ℤ) := Int.emod_lt_of_pos j hN
    omega
  have := getD_npRoll u k m hmlt
  rw [this]
  apply wrap_congr
  have hmz : ((m : ℤ)) = j % (u.length : ℤ) := by
    have h1 : 0 ≤ j % (u.length : ℤ) := Int.emod_nonneg j hN.ne'
    omega
  rw [hmz, Int.sub_emod, Int.emod_emod_of_dvd _ dvd_rfl, ← Int.sub_emod]

/-- Pointwise value of the source's `third_d` in terms of the periodic
indexing `wrap`: entry `i` is
`(u_{i+2} - 2 u_{i+1} + 2 u_{i-1} - u_{i-2}) / (2 dx³)`. -/
theorem third_d_getD (u : List ℚ) (dx : ℚ) (i : ℕ) (hi : i < u.length) :
    (third_d u dx).getD i 0 =
      (wrap u ((i : ℤ) + 2) - 2 * wrap u ((i : ℤ) + 1)
        + 2 * wrap u ((i : ℤ) - 1) - wrap u ((i : ℤ) - 2)) / (2 * dx ^ 3) := by
  have h1 : i < (npRoll u (-2)).length := by rw [length_npRoll]; exact hi
  have h2 : i < (npRoll u (-1)).length := by rw [length_npRoll]; exact hi
  have h3 : i < (npRoll u 1).length := by rw [length_npRoll]; exact hi
  have h4 : i < (npRoll u 2).length := by rw [length_npRoll]; exact hi
  have h5 : i < (smul 2 (npRoll u (-1))).length := by rw [length_smul]; exact h2
  have h6 : i < (smul 2 (npRoll u 1)).length := by rw [length_smul]; exact h3
  have h7 : i < (vsub (npRoll u (-2)) (smul 2 (npRoll u (-1)))).length := by
    rw [length_vsub]; omega
  have h8 : i < (vadd (vsub (npRoll u (-2)) (smul 2 (npRoll u (-1))))
      (smul 2 (npRoll u 1))).length := by rw [length_vadd]; omega
  have h9 : i < (vsub (vadd (vsub (npRoll u (-2)) (smul 2 (npRoll u (-1))))
      (smul 2 (npRoll u 1))) (npRoll u 2)).length := by rw [length_vsub]; omega
  unfold third_d
  rw [getD_vdiv _ _ _ h9, getD_vsub _ _ _ h8 h4, getD_vadd _ _ _ h7 h6,
    getD_vsub _ _ _ h1 h5, getD_smul _ _ _ h2, getD_smul _ _ _ h3,
    getD_npRoll u (-2) i hi, getD_npRoll u (-1) i hi,
    getD_npRoll u 1 i hi, getD_npRoll u 2 i hi]
  have e1 : (i : ℤ) - (-2) = (i : ℤ) + 2 := by ring
  have e2 : (i : ℤ) - (-1) = (i : ℤ) + 1 := by ring
  rw [e1, e2]

/-- `wrap`-level form of `third_d_getD`, valid at every integer index. -/
theorem wrap_third_d (u : List ℚ) (dx : ℚ) (j : ℤ) (hu : 0 < u.length) :
    wrap (third_d u dx) j =
      (wrap u (j + 2) - 2 * wrap u (j + 1)
        + 2 * wrap u (j - 1) - wrap u (j - 2)) / (2 * dx ^ 3) := by
  have hN : (0 : ℤ) < (u.length : ℤ) := by exact_mod_cast hu
  have hlen : (third_d u dx).length = u.length := length_third_d u dx
  set m : ℕ := (j % (u.length : ℤ)).toNat with hm_def
  have hmlt : m < u.length := by
    have ha : 0 ≤ j % (u.length : ℤ) := Int.emod_nonneg j hN.ne'
    have hb : j % (u.length : ℤ) < (u.length : ℤ) := Int.emod_lt_of_pos j hN
    omega
  have hmz : ((m : ℤ)) = j % (u.length : ℤ) := by
    have ha : 0 ≤ j % (u.length : ℤ) := Int.emod_nonneg j hN.ne'
    omega
  have hstep := third_d_getD u dx m hmlt
  have hw : wrap (third_d u dx) j = (third_d u dx).getD m 0 := by
    unfold wrap
    rw [hlen]
  rw [hw, hstep]
  have hc : ∀ c : ℤ, wrap u ((m : ℤ) + c) = wrap u (j + c) := by
    intro c
    apply wrap_congr
    rw [hmz, Int.add_emod, Int.emod_emod_of_dvd _ dvd_rfl, ← Int.add_emod]
  have hc' : ∀ c : ℤ, wrap u ((m : ℤ) - c) = wrap u (j - c) := by
    intro c
    apply wrap_congr
    rw [hmz, Int.sub_emod, Int.emod_emod_of_dvd _ dvd_rfl, ← Int.sub_emod]
  rw [hc 2, hc 1, hc' 1, hc' 2]

/-! ### Sums -/

theorem sum_npRoll (u : List ℚ) (k : ℤ) : (npRoll u k).sum = u.sum :=
  (List.rotate_perm u _).sum_eq

theorem sum_vadd (a : List ℚ) : ∀ b : List ℚ, a.length = b.length →
    (vadd a b).sum = a.sum + b.sum := by
  induction a with
  | nil =>
    intro b hb
    have : b = [] := List.eq_nil_of_length_eq_zero hb.symm
    simp [this, vadd]
  | cons x xs ih =>
    intro b hb
    cases b with
    | nil => simp at hb
    | cons y ys =>
      have : xs.length = ys.length := by simpa using hb
      simp only [vadd, List.zipWith_cons_cons, List.sum_cons]
      have := ih ys this
      simp only [vadd] at this
      rw [this]
      ring

theorem sum_vsub (a : List ℚ) : ∀ b : List ℚ, a.length = b.length →
    (vsub a b).sum = a.sum - b.sum := by
  induction a with
  | nil =>
    intro b hb
    have : b = [] := List.eq_nil_of_length_eq_zero hb.symm
    simp [this, vsub]
  | cons x xs ih =>
    intro b hb
    cases b with
    | nil => simp at hb
    | cons y ys =>
      have : xs.length = ys.length := by simpa using hb
      simp only [vsub, List.zipWith_cons_cons, List.sum_cons]
      have := ih ys this
      simp only [vsub] at this
      rw [this]
      ring

theorem sum_smul (c : ℚ) (a : List ℚ) : (smul c a).sum = c * a.sum := by
  induction a with
  | nil => simp [smul]
  | cons x xs ih =>
    simp only [smul, List.map_cons, List.sum_cons]
    simp only [smul] at ih
    rw [ih]
    ring

theorem sum_vdiv (a : List ℚ) (c : ℚ) : (vdiv a c).sum = a.sum / c := by
  induction a with
  | nil => simp [vdiv]
  | cons x xs ih =>
    simp only [vdiv, List.map_cons, List.sum_cons]
    simp only [vdiv] at ih
    rw [ih, add_div]

theorem sum_third_d (u : List ℚ) (dx : ℚ) : (third_d u dx).sum = 0 := by
  unfold third_d
  have l1 : (npRoll u (-2)).length = u.length := length_npRoll _ _
  have l2 : (smul 2 (npRoll u (-1))).length = u.length := by
    rw [length_smul, length_npRoll]
  have l3 : (smul 2 (npRoll u 1)).length = u.length := by
    rw [length_smul, length_npRoll]
  have l4 : (npRoll u 2).length = u.length := length_npRoll _ _
  have l5 : (vsub (npRoll u (-2)) (smul 2 (npRoll u (-1)))).length = u.length := by
    rw [length_vsub]; omega
  have l6 : (vadd (vsub (npRoll u (-2)) (smul 2 (npRoll u (-1))))
      (smul 2 (npRoll u 1))).length = u.length := by rw [length_vadd]; omega
  rw [sum_vdiv, sum_vsub _ _ (by omega), sum_vadd _ _ (by omega),
    sum_vsub _ _ (by omega), sum_smul, sum_smul,
    sum_npRoll, sum_npRoll, sum_npRoll, sum_npRoll]
  have : u.sum - 2 * u.sum + 2 * u.sum - u.sum = 0 := by ring
  rw [this, zero_div]

theorem sum_step (u : List ℚ) (dt dx : ℚ) : (step u dt dx).sum = u.sum := by
  unfold step
  have hl : u.length = (smul dt (third_d u dx)).length := by
    rw [length_smul, length_third_d]
  rw [sum_vsub _ _ hl, sum_smul, sum_third_d, mul_zero, sub_zero]

theorem sum_integrate (u : List ℚ) (dt dx : ℚ) (nt : ℕ) :
    (integrate u dt dx nt).sum = u.sum := by
  induction nt with
  | zero => rfl
  | succ n ih => rw [integrate_succ, sum_step, ih]

/-! ### Claims -/

/-- C1 (counterexample): the stencil computed by the source's `third_d` does
not equal the spec's written formula
`(u_{i-2} - 2 u_{i-1} + 2 u_{i+1} - u_{i+2}) / (2 dx³)`: on the concrete
state `[1,0,0,0,0]` with `dx = 1` the two arrays differ (entry 1 is `1` for
the code and `-1` for the spec's formula). -/
theorem third_d_ne_spec_stencil :
    third_d ([1, 0, 0, 0, 0] : List ℚ) 1 ≠ specD3 [1, 0, 0, 0, 0] 1 := by
  simp [third_d, specD3, wrap, npRoll, vadd, vsub, smul, vdiv, List.rotate,
    List.range_succ]
  norm_num

/-- C1 (amended): for every state vector `u` of length `N ≥ 5` and every
index `i < N`, the third-derivative operator computed by the stepper equals
the stencil `(u_{i+2} - 2 u_{i+1} + 2 u_{i-1} - u_{i-2}) / (2 dx³)` — the
spec's formula with `i-k` and `i+k` exchanged (equivalently, its negation) —
with all indices taken modulo `N`. -/
theorem third_d_stencil_amended (u : List ℚ) (dx : ℚ) (i : ℕ)
    (h5 : 5 ≤ u.length) (hi : i < u.length) :
    (third_d u dx).getD i 0 =
      (wrap u ((i : ℤ) + 2) - 2 * wrap u ((i : ℤ) + 1)
        + 2 * wrap u ((i : ℤ) - 1) - wrap u ((i : ℤ) - 2)) / (2 * dx ^ 3) :=
  third_d_getD u dx i hi

/-- C1 (witness): the amended stencil relation at the concrete state
`[1,2,3,4,5]`, `dx = 1`, `i = 0`. -/
theorem third_d_stencil_amended_witness :
    5 ≤ ([1, 2, 3, 4, 5] : List ℚ).length ∧ 0 < ([1, 2, 3, 4, 5] : List ℚ).length ∧
    (third_d ([1, 2, 3, 4, 5] : List ℚ) 1).getD 0 0 =
      (wrap [1, 2, 3, 4, 5] ((0 : ℕ) + 2 : ℤ) - 2 * wrap [1, 2, 3, 4, 5] ((0 : ℕ) + 1 : ℤ)
        + 2 * wrap [1, 2, 3, 4, 5] ((0 : ℕ) - 1 : ℤ)
        - wrap [1, 2, 3, 4, 5] ((0 : ℕ) - 2 : ℤ)) / (2 * 1 ^ 3) :=
  ⟨by decide, by decide,
    third_d_stencil_amended [1, 2, 3, 4, 5] 1 0 (by decide) (by decide)⟩

/-- C2: a single time step produces `u_new[i] = u_old[i] - dt * D₃(u_old)[i]`
at every index, where the whole derivative array `third_d u dx` is computed
from the same pre-step state `u`. -/
theorem step_from_prestep (u : List ℚ) (dt dx : ℚ) (i : ℕ) (hi : i < u.length) :
    (step u dt dx).length = u.length ∧
    (step u dt dx).getD i 0 = u.getD i 0 - dt * (third_d u dx).getD i 0 := by
  refine ⟨length_step u dt dx, ?_⟩
  have h1 : i < (third_d u dx).length := by rw [length_third_d]; exact hi
  have h2 : i < (smul dt (third_d u dx)).length := by rw [length_smul]; exact h1
  unfold step
  rw [getD_vsub _ _ _ hi h2, getD_smul _ _ _ h1]

/-- C2 (witness): the pointwise step relation at the concrete state
`[1,2,3,4,5]`, `dt = 1`, `dx = 1`, `i = 0`. -/
theorem step_from_prestep_witness :
    0 < ([1, 2, 3, 4, 5] : List ℚ).length ∧
    ((step ([1, 2, 3, 4, 5] : List ℚ) 1 1).length = ([1, 2, 3, 4, 5] : List ℚ).length ∧
     (step ([1, 2, 3, 4, 5] : List ℚ) 1 1).getD 0 0 =
       ([1, 2, 3, 4, 5] : List ℚ).getD 0 0 - 1 * (third_d ([1, 2, 3, 4, 5] : List ℚ) 1).getD 0 0) :=
  ⟨by decide, step_from_prestep [1, 2, 3, 4, 5] 1 1 0 (by decide)⟩

/-- C3: the full integration applies the single-step update exactly
`Nt = int(T/dt)` times in strict sequential order, and for `T ≥ 0`, `dt > 0`
this count is `⌊T/dt⌋`. -/
theorem integrate_step_count (u : List ℚ) (dx T dt : ℚ) (hT : 0 ≤ T) (hdt : 0 < dt) :
    numSteps T dt = ⌊T / dt⌋ ∧
    integrate u dt dx (numSteps T dt).toNat =
      (fun v => step v dt dx)^[(⌊T / dt⌋).toNat] u := by
  have h0 : 0 ≤ T / dt := div_nonneg hT hdt.le
  have h1 : numSteps T dt = ⌊T / dt⌋ := by
    unfold numSteps pyInt
    rw [if_pos h0]
  exact ⟨h1, by rw [h1, integrate_eq_iterate]⟩

/-- C3 (witness): the step-count relation at the concrete parameters of a
run with `T = 3`, `dt = 1` from the state `[1,2,3,4,5]`, `dx = 1`. -/
theorem integrate_step_count_witness :
    (0 ≤ (3 : ℚ) ∧ 0 < (1 : ℚ)) ∧
    (numSteps 3 1 = ⌊(3 : ℚ) / 1⌋ ∧
     integrate ([1, 2, 3, 4, 5] : List ℚ) 1 1 (numSteps 3 1).toNat =
       (fun v => step v 1 1)^[(⌊(3 : ℚ) / 1⌋).toNat] [1, 2, 3, 4, 5]) :=
  ⟨⟨by norm_num, by norm_num⟩,
    integrate_step_count [1, 2, 3, 4, 5] 1 3 1 (by norm_num) (by norm_num)⟩

theorem gridX_getD (L : ℚ) (N : ℕ) (i : ℕ) (hi : i < N) :
    (gridX L N).getD i 0 = (i : ℚ) * (L / N) := by
  have hlen : (gridX L N).length = N := by
    unfold gridX linspace
    rw [List.length_map, List.length_range]
  have hi' : i < (gridX L N).length := by omega
  rw [List.getD_eq_getElem _ _ hi']
  unfold gridX linspace
  rw [List.getElem_map, List.getElem_range]
  ring_nf

/-- C4: grid construction with domain length `L > 0` and point count `N`
yields spacing `dx = L/N` and coordinates `x_i = i·dx` for `i ∈ [0, N)`,
evenly spaced samples of `[0, L)` with the right endpoint excluded. -/
theorem grid_spacing_points (L : ℚ) (N : ℕ) (hL : 0 < L) :
    dxOf L N = L / N ∧ (gridX L N).length = N ∧
    (∀ i : ℕ, i < N → (gridX L N).getD i 0 = (i : ℚ) * dxOf L N ∧
      0 ≤ (gridX L N).getD i 0 ∧ (gridX L N).getD i 0 < L) ∧
    (∀ i : ℕ, i + 1 < N →
      (gridX L N).getD (i + 1) 0 - (gridX L N).getD i 0 = dxOf L N) := by
  refine ⟨rfl, by unfold gridX linspace; rw [List.length_map, List.length_range], ?_, ?_⟩
  · intro i hi
    have hN : 0 < N := by omega
    have hNQ : (0 : ℚ) < (N : ℚ) := by exact_mod_cast hN
    have hiQ : (i : ℚ) < (N : ℚ) := by exact_mod_cast hi
    rw [gridX_getD L N i hi]
    refine ⟨rfl, ?_, ?_⟩
    · exact mul_nonneg (Nat.cast_nonneg i) (div_nonneg hL.le hNQ.le)
    · have hdx : 0 < L / (N : ℚ) := div_pos hL hNQ
      have h1 : (i : ℚ) * (L / N) < (N : ℚ) * (L / N) :=
        mul_lt_mul_of_pos_right hiQ hdx
      have h2 : (N : ℚ) * (L / N) = L := by
        field_simp
      rw [h2] at h1
      exact h1
  · intro i hi
    rw [gridX_getD L N (i + 1) hi, gridX_getD L N i (by omega)]
    unfold dxOf
    push_cast
    ring

/-- C4 (witness): the grid relations at the concrete parameters `L = 100`,
`N = 5`. -/
theorem grid_spacing_points_witness :
    0 < (100 : ℚ) ∧
    (dxOf 100 5 = 100 / (5 : ℕ) ∧ (gridX 100 5).length = 5 ∧
     (∀ i : ℕ, i < 5 → (gridX 100 5).getD i 0 = (i : ℚ) * dxOf 100 5 ∧
       0 ≤ (gridX 100 5).getD i 0 ∧ (gridX 100 5).getD i 0 < 100) ∧
     (∀ i : ℕ, i + 1 < 5 →
       (gridX 100 5).getD (i + 1) 0 - (gridX 100 5).getD i 0 = dxOf 100 5)) :=
  ⟨by norm_num, grid_spacing_points 100 5 (by norm_num)⟩

/-- C5 (spec-modelled): parameter construction fails with `InvalidGrid`
exactly when `L ≤ 0`, `N < 5`, `dt ≤ 0` or `T < 0`; in particular `N = 3`
and `N = 4` are rejected. -/
theorem makeParams_invalidGrid_iff :
    (∀ (L : ℚ) (N : ℕ) (dt T : ℚ),
      makeParams L N dt T = .error .invalidGrid ↔ (L ≤ 0 ∨ N < 5 ∨ dt ≤ 0 ∨ T < 0)) ∧
    makeParams 1 3 1 1 = .error .invalidGrid ∧
    makeParams 1 4 1 1 = .error .invalidGrid := by
  refine ⟨?_, by simp [makeParams], by simp [makeParams]⟩
  intro L N dt T
  unfold makeParams
  by_cases h : L ≤ 0 ∨ N < 5 ∨ dt ≤ 0 ∨ T < 0
  · rw [if_pos h]
    simp [h]
  · rw [if_neg h]
    simp [h]

theorem zipWith_replicate_same {f : ℚ → ℚ → ℚ} (a b : ℚ) (n : ℕ) :
    List.zipWith f (List.replicate n a) (List.replicate n b)
      = List.replicate n (f a b) := by
  induction n with
  | zero => rfl
  | succ m ih => simp [List.replicate_succ, ih]

theorem third_d_replicate (n : ℕ) (c dx : ℚ) :
    third_d (List.replicate n c) dx = List.replicate n 0 := by
  have hroll : ∀ k : ℤ, npRoll (List.replicate n c) k = List.replicate n c := by
    intro k
    unfold npRoll
    exact List.rotate_replicate c n _
  unfold third_d
  rw [hroll, hroll, hroll, hroll]
  unfold smul vadd vsub vdiv
  rw [List.map_replicate, zipWith_replicate_same, zipWith_replicate_same,
    zipWith_replicate_same, List.map_replicate]
  have hv : (c - 2 * c + 2 * c - c) / (2 * dx ^ 3) = 0 := by
    have : c - 2 * c + 2 * c - c = 0 := by ring
    rw [this, zero_div]
  rw [hv]

theorem step_replicate (n : ℕ) (c dt dx : ℚ) :
    step (List.replicate n c) dt dx = List.replicate n c := by
  unfold step
  rw [third_d_replicate]
  unfold smul vsub
  rw [List.map_replicate, zipWith_replicate_same]
  norm_num

/-- C7: for every constant state vector on a valid grid (`N ≥ 5`), the
derivative array is identically zero and a full integration of any number
of steps with any step size returns the state unchanged. -/
theorem third_d_const_integrate_const (n : ℕ) (c dt dx : ℚ) (nt : ℕ) (hn : 5 ≤ n) :
    third_d (List.replicate n c) dx = List.replicate n 0 ∧
    integrate (List.replicate n c) dt dx nt = List.replicate n c := by
  refine ⟨third_d_replicate n c dx, ?_⟩
  induction nt with
  | zero => rfl
  | succ m ih => rw [integrate_succ, ih, step_replicate]

/-- C7 (witness): the constant-field fixed point at `n = 5`, `c = 7`,
`dt = 1`, `dx = 1`, `nt = 2`. -/
theorem third_d_const_integrate_const_witness :
    5 ≤ 5 ∧
    (third_d (List.replicate 5 (7 : ℚ)) 1 = List.replicate 5 0 ∧
     integrate (List.replicate 5 (7 : ℚ)) 1 1 2 = List.replicate 5 7) :=
  ⟨by decide, third_d_const_integrate_const 5 7 1 1 2 (by decide)⟩

/-- C10: the elementwise sum of the derivative array is exactly 0, so every
time step — and hence the full `Nt`-step integration — preserves the total
sum of the state vector exactly. -/
theorem sum_conserved (u : List ℚ) (dt dx : ℚ) (nt : ℕ) :
    (third_d u dx).sum = 0 ∧ (step u dt dx).sum = u.sum ∧
    (integrate u dt dx nt).sum = u.sum :=
  ⟨sum_third_d u dx, sum_step u dt dx, sum_integrate u dt dx nt⟩

theorem wrap_lin (u v : List ℚ) (a b : ℚ) (h : u.length = v.length)
    (hu : 0 < u.length) (j : ℤ) :
    wrap (vadd (smul a u) (smul b v)) j = a * wrap u j + b * wrap v j := by
  have hwlen : (vadd (smul a u) (smul b v)).length = u.length := by
    rw [length_vadd, length_smul, length_smul, ← h, min_self]
  set m : ℕ := (j % (u.length : ℤ)).toNat with hm_def
  have hm : m < u.length := wrap_index_lt u j hu
  have hmv : m < v.length := by omega
  have hma : m < (smul a u).length := by rw [length_smul]; exact hm
  have hmb : m < (smul b v).length := by rw [length_smul]; exact hmv
  have h1 : wrap (vadd (smul a u) (smul b v)) j = (vadd (smul a u) (smul b v)).getD m 0 := by
    unfold wrap
    rw [hwlen]
  have h2 : wrap u j = u.getD m 0 := rfl
  have h3 : wrap v j = v.getD m 0 := by
    unfold wrap
    rw [← h]
  rw [h1, h2, h3, getD_vadd _ _ _ hma hmb, getD_smul _ _ _ hm, getD_smul _ _ _ hmv]

/-- C8: the derivative operator is linear: for state vectors `u`, `v` of the
same length and scalars `a`, `b`,
`third_d (a·u + b·v) = a·third_d u + b·third_d v`, exactly in exact
arithmetic. -/
theorem third_d_linear (u v : List ℚ) (a b dx : ℚ) (h : u.length = v.length) :
    third_d (vadd (smul a u) (smul b v)) dx
      = vadd (smul a (third_d u dx)) (smul b (third_d v dx)) := by
  have hwlen : (vadd (smul a u) (smul b v)).length = u.length := by
    rw [length_vadd, length_smul, length_smul, ← h, min_self]
  have hlenL : (third_d (vadd (smul a u) (smul b v)) dx).length = u.length := by
    rw [length_third_d, hwlen]
  have hlenR : (vadd (smul a (third_d u dx)) (smul b (third_d v dx))).length = u.length := by
    rw [length_vadd, length_smul, length_smul, length_third_d, length_third_d, ← h, min_self]
  apply List.ext_getElem (by omega)
  intro i h1 h2
  have hiu : i < u.length := by omega
  have hiv : i < v.length := by omega
  have hu : 0 < u.length := by omega
  have hiw : i < (vadd (smul a u) (smul b v)).length := by omega
  have hidu : i < (third_d u dx).length := by rw [length_third_d]; exact hiu
  have hidv : i < (third_d v dx).length := by rw [length_third_d]; exact hiv
  have hisu : i < (smul a (third_d u dx)).length := by rw [length_smul]; exact hidu
  have hisv : i < (smul b (third_d v dx)).length := by rw [length_smul]; exact hidv
  rw [← List.getD_eq_getElem _ 0 h1, ← List.getD_eq_getElem _ 0 h2]
  rw [third_d_getD _ dx i hiw,
    getD_vadd _ _ _ hisu hisv, getD_smul _ _ _ hidu, getD_smul _ _ _ hidv,
    third_d_getD u dx i hiu, third_d_getD v dx i hiv,
    wrap_lin u v a b h hu, wrap_lin u v a b h hu, wrap_lin u v a b h hu,
    wrap_lin u v a b h hu]
  simp only [div_eq_mul_inv]
  ring

/-- C8 (witness): linearity at the concrete vectors `u = [1,2,3,4,5]`,
`v = [5,4,3,2,1]`, scalars `a = 2`, `b = 3`, `dx = 1`. -/
theorem third_d_linear_witness :
    ([1, 2, 3, 4, 5] : List ℚ).length = ([5, 4, 3, 2, 1] : List ℚ).length ∧
    third_d (vadd (smul 2 ([1, 2, 3, 4, 5] : List ℚ)) (smul 3 [5, 4, 3, 2, 1])) 1
      = vadd (smul 2 (third_d ([1, 2, 3, 4, 5] : List ℚ) 1))
          (smul 3 (third_d ([5, 4, 3, 2, 1] : List ℚ) 1)) :=
  ⟨by decide, third_d_linear [1, 2, 3, 4, 5] [5, 4, 3, 2, 1] 2 3 1 (by decide)⟩

/-- C9: the derivative operator commutes with cyclic translation of the
input under the periodic indexing, and a shift by `N` is the identity. -/
theorem third_d_translation_invariant (u : List ℚ) (k : ℤ) (dx : ℚ) :
    third_d (npRoll u k) dx = npRoll (third_d u dx) k ∧
    npRoll u (u.length : ℤ) = u := by
  constructor
  · have hlenL : (third_d (npRoll u k) dx).length = u.length := by
      rw [length_third_d, length_npRoll]
    have hlenR : (npRoll (third_d u dx) k).length = u.length := by
      rw [length_npRoll, length_third_d]
    apply List.ext_getElem (by omega)
    intro i h1 h2
    have hiu : i < u.length := by omega
    have hu : 0 < u.length := by omega
    have hir : i < (npRoll u k).length := by rw [length_npRoll]; exact hiu
    have hid : i < (third_d u dx).length := by rw [length_third_d]; exact hiu
    rw [← List.getD_eq_getElem _ 0 h1, ← List.getD_eq_getElem _ 0 h2]
    rw [third_d_getD _ dx i hir, getD_npRoll _ k i hid,
      wrap_npRoll u k _ hu, wrap_npRoll u k _ hu, wrap_npRoll u k _ hu,
      wrap_npRoll u k _ hu, wrap_third_d u dx _ hu]
    have e1 : (i : ℤ) + 2 - k = (i : ℤ) - k + 2 := by ring
    have e2 : (i : ℤ) + 1 - k = (i : ℤ) - k + 1 := by ring
    have e3 : (i : ℤ) - 1 - k = (i : ℤ) - k - 1 := by ring
    have e4 : (i : ℤ) - 2 - k = (i : ℤ) - k - 2 := by ring
    rw [e1, e2, e3, e4]
  · unfold npRoll
    have hz : (-(u.length : ℤ)) % (u.length : ℤ) = 0 :=
      Int.emod_eq_zero_of_dvd ⟨-1, by ring⟩
    rw [hz]
    exact List.rotate_zero u

/-- C6 (spec-modelled): if after some step within the run the state vector
contains a non-finite value, the checked integration returns
`NonFiniteState` instead of completing the remaining steps. -/
theorem integrateChecked_aborts_nonfinite (dt dx : FVal) (u : List FVal) (n : ℕ)
    (h : ∃ k, 0 < k ∧ k ≤ n ∧ allFinite ((fun v => step v dt dx)^[k] u) = false) :
    integrateChecked dt dx u n = .error .nonFiniteState := by
  induction n generalizing u with
  | zero =>
    obtain ⟨k, hk0, hkn, _⟩ := h
    omega
  | succ m ih =>
    obtain ⟨k, hk0, hkn, hkf⟩ := h
    cases hfin : allFinite (step u dt dx) with
    | false => simp [integrateChecked, hfin]
    | true =>
      have hk1 : 1 < k := by
        by_contra hle
        have hkeq : k = 1 := by omega
        rw [hkeq, Function.iterate_one] at hkf
        simp [hfin] at hkf
      simp only [integrateChecked, hfin, if_true]
      apply ih
      refine ⟨k - 1, by omega, by omega, ?_⟩
      have hsplit : (fun v => step v dt dx)^[k] u
          = (fun v => step v dt dx)^[k - 1] (step u dt dx) := by
        conv_lhs => rw [show k = (k - 1) + 1 by omega]
        rw [Function.iterate_succ_apply]
      rw [← hsplit]
      exact hkf

/-- C6 (witness): from a state whose first entry is already non-finite, one
checked step with `dt = dx = 1` detects a non-finite state and aborts. -/
theorem integrateChecked_aborts_nonfinite_witness :
    (∃ k, 0 < k ∧ k ≤ 1 ∧
      allFinite ((fun v => step v (FVal.fin 1) (FVal.fin 1))^[k]
        [FVal.nonfin, FVal.fin 0, FVal.fin 0, FVal.fin 0, FVal.fin 0]) = false) ∧
    integrateChecked (FVal.fin 1) (FVal.fin 1)
      [FVal.nonfin, FVal.fin 0, FVal.fin 0, FVal.fin 0, FVal.fin 0] 1
      = .error .nonFiniteState :=
  ⟨⟨1, by decide, by decide, by decide⟩,
    integrateChecked_aborts_nonfinite (FVal.fin 1) (FVal.fin 1)
      [FVal.nonfin, FVal.fin 0, FVal.fin 0, FVal.fin 0, FVal.fin 0] 1
      ⟨1, by decide, by decide, by decide⟩⟩

end KdV
